import Mathlib

set_option maxHeartbeats 1000000

/-!
Verification of the tiptap-text-direction extension.

The development shallowly embeds `src/index.ts` (and, where a claim targets
it, the historical variant of the same extension kept in the repository).
Strings are modelled as lists of UTF-16 code units (`List Nat`); the
ProseMirror host collaborator (documents, transactions, stored marks, the
change-range extractor) is modelled from the specification's description of
that interface, as the specification directs for external collaborators.
-/

/-! ## Definitions: the classifier, the host model, the plugin, the
commands, the attribute codec, and the historical variant. -/

/-- The supported direction values: `DIRECTIONS = ["ltr", "rtl", "auto"]`
(`type Direction = (typeof DIRECTIONS)[number]`). -/
inductive Direction : Type
  | ltr
  | rtl
  | auto
deriving DecidableEq, Repr

/-- Membership in `RTL_CHAR_RANGE = "֑-߿יִ-﷽ﹰ-ﻼ"`,
the character class of the RTL side of the classifier's regexes. -/
def isRTLChar (c : Nat) : Bool :=
  (0x0591 ≤ c && c ≤ 0x07FF) || (0xFB1D ≤ c && c ≤ 0xFDFD) || (0xFE70 ≤ c && c ≤ 0xFEFC)

/-- Membership in `LTR_CHAR_RANGE`, the character class
`A-Za-zÀ-ÖØ-öø-ʸ̀-֐ࠀ-῿‎Ⰰ-﬜︀-﹯﻽-￿`. -/
def isLTRChar (c : Nat) : Bool :=
  (0x0041 ≤ c && c ≤ 0x005A) || (0x0061 ≤ c && c ≤ 0x007A) ||
  (0x00C0 ≤ c && c ≤ 0x00D6) || (0x00D8 ≤ c && c ≤ 0x00F6) ||
  (0x00F8 ≤ c && c ≤ 0x02B8) || (0x0300 ≤ c && c ≤ 0x0590) ||
  (0x0800 ≤ c && c ≤ 0x1FFF) || (c == 0x200E) ||
  (0x2C00 ≤ c && c ≤ 0xFB1C) || (0xFE00 ≤ c && c ≤ 0xFE6F) ||
  (0xFEFD ≤ c && c ≤ 0xFFFF)

/-- Embedding of `RTL_REGEX.test(text)` where ``RTL_REGEX = new RegExp(`^[^LTR]*[RTL]`)``:
the regex matches exactly when some RTL character occurs with only
non-LTR characters before it, i.e. when the maximal non-LTR prefix of the
string contains an RTL character. -/
def rtlRegexTest (text : List Nat) : Bool :=
  (text.takeWhile (fun c => !isLTRChar c)).any isRTLChar

/-- Embedding of `LTR_REGEX.test(text)` where ``LTR_REGEX = new RegExp(`^[^RTL]*[LTR]`)``. -/
def ltrRegexTest (text : List Nat) : Bool :=
  (text.takeWhile (fun c => !isRTLChar c)).any isLTRChar

/-- The function `getTextDirection` from `src/index.ts`:
empty text gives `null`, then the two regex tests are tried in order. -/
def getTextDirection (text : List Nat) : Option Direction :=
  if text.length = 0 then none
  else if rtlRegexTest text then some Direction.rtl
  else if ltrRegexTest text then some Direction.ltr
  else none

/-- Reference scanner: result of classifying by the first strong character. -/
def scanDir : List Nat → Option Direction
  | [] => none
  | c :: cs =>
    if isRTLChar c then some Direction.rtl
    else if isLTRChar c then some Direction.ltr
    else scanDir cs

/-- Marks are opaque to this extension; only their identity matters. -/
abbrev Mark := Nat

/-- A block node: type name, `dir` attribute (`null` = `none`), text content. -/
structure PMNode where
  typeName : String
  dir : Option Direction
  text : List Nat
deriving DecidableEq, Repr

/-- A document snapshot: block nodes addressed by their position. -/
abbrev Doc := List PMNode

/-- A `{ from, to }` span of document positions. -/
structure SRange where
  fromPos : Nat
  toPos : Nat
deriving DecidableEq, Repr

/-- An editor transaction: working document, pending stored marks
(`Mark[] | null`), the log of staged `dir`-attribute writes, and the
`addToHistory` meta flag. -/
structure Tr where
  doc : Doc
  storedMarks : Option (List Mark)
  writes : List (Nat × Option Direction)
  addToHistory : Bool
deriving DecidableEq, Repr

/-- A member of the triggering edit batch; only its `docChanged` flag is
inspected by the plugin. -/
structure Transaction where
  docChanged : Bool
deriving DecidableEq, Repr

/-- An editor state: current document plus pending stored marks. -/
structure EditorState where
  doc : Doc
  storedMarks : Option (List Mark)
deriving DecidableEq, Repr

/-- Embedding of `newState.tr`: a fresh transaction over the state's document. -/
def initialTr (s : EditorState) : Tr :=
  { doc := s.doc, storedMarks := s.storedMarks, writes := [], addToHistory := true }

/-- Replace the node at position `p` (out-of-range positions are untouched). -/
def setNodeAt : Doc → Nat → PMNode → Doc
  | [], _, _ => []
  | _ :: ns, 0, n => n :: ns
  | m :: ns, p + 1, n => m :: setNodeAt ns p n

/-- Set the `dir` attribute of the node at position `p`. -/
def setDirAt : Doc → Nat → Option Direction → Doc
  | [], _, _ => []
  | n :: ns, 0, v => { n with dir := v } :: ns
  | m :: ns, p + 1, v => m :: setDirAt ns p v

/-- Modelled from the spec: `tr.setNodeAttribute(pos, "dir", v)` — an
attribute-write step appended to the in-progress batch.  Applying a step
resets the transaction's pending stored marks (the source comment:
"`tr.setNodeAttribute` resets the stored marks so we'll restore them"). -/
def setNodeAttribute (tr : Tr) (pos : Nat) (v : Option Direction) : Tr :=
  { tr with
    doc := setDirAt tr.doc pos v
    storedMarks := none
    writes := tr.writes ++ [(pos, v)] }

/-- Modelled from the spec: `tr.addStoredMark(mark)` — queue one mark back
into the pending stored-marks state. -/
def addStoredMark (tr : Tr) (m : Mark) : Tr :=
  { tr with storedMarks := some (tr.storedMarks.getD [] ++ [m]) }

/-- Modelled from the spec: `tr.setNodeMarkup(pos, undefined, attrs)` — replace
the node's attributes wholesale, keeping its type and content.  Like any
document step it resets the pending stored marks. -/
def setNodeMarkup (tr : Tr) (pos : Nat) (node : PMNode) : Tr :=
  { tr with doc := setNodeAt tr.doc pos node, storedMarks := none }

/-- Nodes of a document paired with their positions, starting at `i`. -/
def nodesWithPos : Nat → Doc → List (Nat × PMNode)
  | _, [] => []
  | i, n :: ns => (i, n) :: nodesWithPos (i + 1) ns

/-- Embedding of `findChildrenInRange(doc, range, predicate)` from `@tiptap/core`:
the type-matching nodes covered by the span, with their positions. -/
def findChildrenInRange (doc : Doc) (r : SRange) (pred : PMNode → Bool) :
    List (Nat × PMNode) :=
  (nodesWithPos 0 doc).filter
    (fun x => decide (r.fromPos ≤ x.1) && decide (x.1 ≤ r.toPos) && pred x.2)

/-- Modelled from the spec: the Change-Range Extractor (§4.2,
`getChangedRanges(combineTransactionSteps(oldDoc, transactions))`): the
minimal disjoint spans, in ascending order, covering every position whose
content differs between the old and the new snapshot. -/
def getChangedRanges (oldDoc newDoc : Doc) : List SRange :=
  ((List.range (max oldDoc.length newDoc.length)).filter
    (fun i => decide (oldDoc.get? i ≠ newDoc.get? i))).map (fun i => ⟨i, i⟩)

/-- The body of the plugin's per-node loop (`src/index.ts`, the loop over
`findChildrenInRange`): skip a node with an explicit direction and non-empty
text, skip when the classified direction already agrees, otherwise stage the
write and restore the captured stored marks. -/
def reconcileNode (acc : Tr × Bool) (pn : Nat × PMNode) : Tr × Bool :=
  let tr := acc.1
  let node := pn.2
  if node.dir ≠ none ∧ 0 < node.text.length then acc
  else
    let newTextDirection := getTextDirection node.text
    if node.dir = newTextDirection then acc
    else
      let marks := tr.storedMarks.getD []
      let tr1 := setNodeAttribute tr pn.1 newTextDirection
      (marks.foldl addStoredMark tr1, true)

/-- The hook `appendTransaction` of `TextDirectionPlugin` from `src/index.ts`. -/
def appendTransaction (types : List String) (transactions : List Transaction)
    (oldState newState : EditorState) : Option Tr :=
  let docChanges := transactions.any (fun t => t.docChanged)
  if docChanges = false then none
  else
    let tr := { initialTr newState with addToHistory := false }
    let changes := getChangedRanges oldState.doc newState.doc
    let result := changes.foldl
      (fun acc newRange =>
        let nodes := findChildrenInRange newState.doc newRange
          (fun node => types.contains node.typeName)
        nodes.foldl reconcileNode acc)
      (tr, false)
    if result.2 then some result.1 else none

/-- The document visible after the plugin ran: the appended transaction's
document when one was produced, the unchanged state document otherwise. -/
def docAfter (res : Option Tr) (d : Doc) : Doc :=
  match res with
  | none => d
  | some tr => tr.doc

/-- The `from`/`to` resolution shared by the two commands in `src/index.ts`:
a number gives a collapsed span, an explicit `{ from, to }` is used as given,
and otherwise the active selection is used. -/
def resolveRange (position : Option (Nat ⊕ SRange)) (selection : SRange) : SRange :=
  match position with
  | some (Sum.inl p) => ⟨p, p⟩
  | some (Sum.inr r) => r
  | none => selection

/-- The `setTextDirection` command from `src/index.ts`: resolve the target,
and when dispatching, set `dir` on every type-matching node in the target via
`setNodeMarkup`; the command always reports success. -/
def setTextDirection (types : List String) (direction : Direction)
    (position : Option (Nat ⊕ SRange)) (selection : SRange)
    (tr : Tr) (dispatch : Bool) : Tr × Bool :=
  let r := resolveRange position selection
  if dispatch then
    let nodes := findChildrenInRange tr.doc r (fun node => types.contains node.typeName)
    (nodes.foldl (fun t x => setNodeMarkup t x.1 { x.2 with dir := some direction }) tr,
      true)
  else (tr, true)

/-- The `unsetTextDirection` command from `src/index.ts`: like
`setTextDirection` but the `dir` attribute is deleted from the new attrs. -/
def unsetTextDirection (types : List String)
    (position : Option (Nat ⊕ SRange)) (selection : SRange)
    (tr : Tr) (dispatch : Bool) : Tr × Bool :=
  let r := resolveRange position selection
  if dispatch then
    let nodes := findChildrenInRange tr.doc r (fun node => types.contains node.typeName)
    (nodes.foldl (fun t x => setNodeMarkup t x.1 { x.2 with dir := none }) tr,
      true)
  else (tr, true)

/-- A node the per-node loop leaves alone: either the override-wins policy
protects it, or its `dir` already agrees with its classification. -/
def reconciled (n : PMNode) : Prop :=
  (n.dir ≠ none ∧ 0 < n.text.length) ∨ n.dir = getTextDirection n.text

/-- Invariant of the pass: every position either still holds its pre-pass node
or holds a node the pass has brought into agreement with its classification. -/
def touchedOk (doc₀ d : Doc) : Prop :=
  ∀ q : Nat, d.get? q = doc₀.get? q ∨
    ∃ n₀ n : PMNode, doc₀.get? q = some n₀ ∧ d.get? q = some n ∧
      n.text = n₀.text ∧ reconciled n

/-- All staged writes of a transaction carry a classifier result. -/
def writesOk (t : Tr) : Prop := ∀ w ∈ t.writes, w.2 ≠ some Direction.auto

/-- The raw attribute strings of the `DIRECTIONS` constant. -/
def DIRECTIONS : List String := ["ltr", "rtl", "auto"]

/-- The attribute string a direction renders to. -/
def Direction.toAttr : Direction → String
  | Direction.ltr => "ltr"
  | Direction.rtl => "rtl"
  | Direction.auto => "auto"

/-- Embedding of `DIRECTIONS.includes(dir as Direction)` together with the raw value it
lets through, as the internal direction that value denotes. -/
def dirOfString (s : String) : Option Direction :=
  if s = "ltr" then some Direction.ltr
  else if s = "rtl" then some Direction.rtl
  else if s = "auto" then some Direction.auto
  else none

/-- The rule `parseHTML` of the `dir` global attribute: a raw value in `DIRECTIONS`
is used as-is (a missing attribute is not a member), anything else falls back
to `this.options.defaultDirection`. -/
def parseHTML (defaultDirection : Option Direction) (raw : Option String) :
    Option Direction :=
  match raw with
  | none => defaultDirection
  | some s =>
    match dirOfString s with
    | some d => some d
    | none => defaultDirection

/-- The rule `renderHTML` of the `dir` global attribute: the attribute is omitted when
the stored value is falsy or equals `this.options.defaultDirection`, and is
emitted explicitly otherwise. -/
def renderHTML (defaultDirection : Option Direction) (dirAttr : Option Direction) :
    Option String :=
  if dirAttr = none ∨ dirAttr = defaultDirection then none
  else dirAttr.map Direction.toAttr

namespace V2

/-- A node of the historical variant; its `dir` attribute is a raw string. -/
structure V2Node where
  typeName : String
  dir : Option String
  text : List Nat
deriving DecidableEq, Repr

/-- A document of the historical variant. -/
abbrev V2Doc := List V2Node

/-- Helper for `updateAttributes`: walk the document with positions. -/
def updAttrs : Nat → String → String → SRange → V2Doc → V2Doc
  | _, _, _, _, [] => []
  | i, ty, v, sel, n :: ns =>
    (if n.typeName = ty ∧ sel.fromPos ≤ i ∧ i ≤ sel.toPos
      then { n with dir := some v } else n) :: updAttrs (i + 1) ty v sel ns

/-- Modelled from the spec: the tiptap `commands.updateAttributes(type, attrs)`
collaborator used by the historical variant — set the attribute on every node
of the given type covered by the active selection. -/
def updateAttributes (ty : String) (v : String) (sel : SRange) (doc : V2Doc) :
    V2Doc :=
  updAttrs 0 ty v sel doc

/-- The command `setTextDirection` of the historical variant: reject a direction outside
the configured `directions` option without touching the document, otherwise
update every configured type over the active selection. -/
def setTextDirection (directions : List String) (types : List String)
    (direction : String) (sel : SRange) (doc : V2Doc) : Bool × V2Doc :=
  if directions.contains direction = false then (false, doc)
  else (true, types.foldl (fun d ty => updateAttributes ty direction sel d) doc)

end V2

/-! ## Lemmas and theorems. -/

/-- The RTL and LTR character classes are disjoint. -/
lemma isLTRChar_eq_false_of_isRTLChar {c : Nat} (h : isRTLChar c = true) :
    isLTRChar c = false := by
  rw [Bool.eq_false_iff]
  intro hL
  simp only [isRTLChar, Bool.or_eq_true, Bool.and_eq_true, decide_eq_true_eq] at h
  simp only [isLTRChar, Bool.or_eq_true, Bool.and_eq_true, decide_eq_true_eq,
    beq_iff_eq] at hL
  omega

lemma rtlRegexTest_cons (c : Nat) (cs : List Nat) :
    rtlRegexTest (c :: cs) =
      if isLTRChar c then false else (isRTLChar c || rtlRegexTest cs) := by
  simp only [rtlRegexTest, List.takeWhile_cons]
  cases hL : isLTRChar c <;> simp

lemma ltrRegexTest_cons (c : Nat) (cs : List Nat) :
    ltrRegexTest (c :: cs) =
      if isRTLChar c then false else (isLTRChar c || ltrRegexTest cs) := by
  simp only [ltrRegexTest, List.takeWhile_cons]
  cases hR : isRTLChar c <;> simp

lemma tests_eq_scanDir (t : List Nat) :
    (if rtlRegexTest t then some Direction.rtl
     else if ltrRegexTest t then some Direction.ltr else none) = scanDir t := by
  induction t with
  | nil => simp [rtlRegexTest, ltrRegexTest, scanDir]
  | cons c cs ih =>
    rw [rtlRegexTest_cons, ltrRegexTest_cons]
    cases hR : isRTLChar c with
    | true =>
      have hL := isLTRChar_eq_false_of_isRTLChar hR
      simp [scanDir, hR, hL]
    | false =>
      cases hL : isLTRChar c with
      | true => simp [scanDir, hR, hL]
      | false => simpa [scanDir, hR, hL] using ih

lemma getTextDirection_eq_scanDir (t : List Nat) : getTextDirection t = scanDir t := by
  cases t with
  | nil => simp [getTextDirection, scanDir]
  | cons c cs =>
    rw [getTextDirection, if_neg (by simp)]
    exact tests_eq_scanDir (c :: cs)

lemma scanDir_eq_find (t : List Nat) :
    scanDir t = match t.find? (fun c => isRTLChar c || isLTRChar c) with
      | none => none
      | some c => if isRTLChar c then some Direction.rtl else some Direction.ltr := by
  induction t with
  | nil => simp [scanDir, List.find?]
  | cons c cs ih =>
    cases hR : isRTLChar c with
    | true => simp [scanDir, hR, List.find?_cons, Bool.true_or]
    | false =>
      cases hL : isLTRChar c with
      | true => simp [scanDir, hR, hL, List.find?_cons]
      | false => simp [scanDir, hR, hL, List.find?_cons, ih]

/-- C1: for every string `t`, `getTextDirection t` is `rtl` / `ltr` exactly
when the first character of `t` that belongs to either strong-directional
character class is in the RTL / LTR class, and `null` (with the empty string
as a special case) when no strong-directional character occurs in `t`. -/
theorem getTextDirection_first_strong (t : List Nat) :
    getTextDirection t =
      match t.find? (fun c => isRTLChar c || isLTRChar c) with
      | none => none
      | some c => if isRTLChar c then some Direction.rtl else some Direction.ltr :=
  (getTextDirection_eq_scanDir t).trans (scanDir_eq_find t)

lemma mem_nodesWithPos : ∀ (d : Doc) (i q : Nat) (n : PMNode),
    (q, n) ∈ nodesWithPos i d ↔ i ≤ q ∧ d.get? (q - i) = some n := by
  intro d
  induction d with
  | nil => intro i q n; simp [nodesWithPos]
  | cons m ms ih =>
    intro i q n
    simp only [nodesWithPos, List.mem_cons, Prod.mk.injEq, ih]
    constructor
    · rintro (⟨rfl, rfl⟩ | ⟨h1, h2⟩)
      · simp
      · refine ⟨by omega, ?_⟩
        have hq : q - i = (q - (i + 1)) + 1 := by omega
        rw [hq, List.get?_cons_succ]
        exact h2
    · rintro ⟨h1, h2⟩
      rcases Nat.eq_or_lt_of_le h1 with heq | hlt
      · left
        subst heq
        simp only [Nat.sub_self, List.get?_cons_zero, Option.some.injEq] at h2
        exact ⟨rfl, h2.symm⟩
      · right
        refine ⟨hlt, ?_⟩
        have hq : q - i = (q - (i + 1)) + 1 := by omega
        rw [hq, List.get?_cons_succ] at h2
        exact h2

lemma mem_findChildrenInRange (doc : Doc) (r : SRange) (pred : PMNode → Bool)
    (q : Nat) (n : PMNode) :
    (q, n) ∈ findChildrenInRange doc r pred ↔
      doc.get? q = some n ∧ r.fromPos ≤ q ∧ q ≤ r.toPos ∧ pred n = true := by
  simp only [findChildrenInRange, List.mem_filter, mem_nodesWithPos, Nat.zero_le,
    true_and, Nat.sub_zero, Bool.and_eq_true, decide_eq_true_eq]
  tauto

lemma setDirAt_get?_ne : ∀ (d : Doc) (p q : Nat) (v : Option Direction), q ≠ p →
    (setDirAt d p v).get? q = d.get? q := by
  intro d
  induction d with
  | nil => intro p q v _; simp [setDirAt]
  | cons m ms ih =>
    intro p q v h
    cases p with
    | zero =>
      cases q with
      | zero => exact absurd rfl h
      | succ q' => simp [setDirAt]
    | succ p' =>
      cases q with
      | zero => simp [setDirAt]
      | succ q' => simpa [setDirAt] using ih p' q' v (by omega)

lemma setDirAt_get?_eq : ∀ (d : Doc) (p : Nat) (v : Option Direction) (n : PMNode),
    d.get? p = some n → (setDirAt d p v).get? p = some { n with dir := v } := by
  intro d
  induction d with
  | nil => intro p v n h; simp at h
  | cons m ms ih =>
    intro p v n h
    cases p with
    | zero =>
      simp only [List.get?_cons_zero, Option.some.injEq] at h
      subst h
      simp [setDirAt]
    | succ p' =>
      simp only [List.get?_cons_succ] at h
      simpa [setDirAt] using ih p' v n h

lemma setNodeAt_get?_ne : ∀ (d : Doc) (p q : Nat) (x : PMNode), q ≠ p →
    (setNodeAt d p x).get? q = d.get? q := by
  intro d
  induction d with
  | nil => intro p q x _; simp [setNodeAt]
  | cons m ms ih =>
    intro p q x h
    cases p with
    | zero =>
      cases q with
      | zero => exact absurd rfl h
      | succ q' => simp [setNodeAt]
    | succ p' =>
      cases q with
      | zero => simp [setNodeAt]
      | succ q' => simpa [setNodeAt] using ih p' q' x (by omega)

lemma setNodeAt_get?_eq : ∀ (d : Doc) (p : Nat) (x n : PMNode),
    d.get? p = some n → (setNodeAt d p x).get? p = some x := by
  intro d
  induction d with
  | nil => intro p x n h; simp at h
  | cons m ms ih =>
    intro p x n h
    cases p with
    | zero => simp [setNodeAt]
    | succ p' =>
      simp only [List.get?_cons_succ] at h
      simpa [setNodeAt] using ih p' x n h

lemma foldl_addStoredMark_parts (ms : List Mark) : ∀ t : Tr,
    (ms.foldl addStoredMark t).doc = t.doc ∧
    (ms.foldl addStoredMark t).writes = t.writes ∧
    (ms.foldl addStoredMark t).addToHistory = t.addToHistory := by
  induction ms with
  | nil => intro t; exact ⟨rfl, rfl, rfl⟩
  | cons m ms ih =>
    intro t
    simpa [List.foldl_cons, addStoredMark] using ih (addStoredMark t m)

lemma foldl_addStoredMark_storedMarks_some (ms : List Mark) :
    ∀ (t : Tr) (acc : List Mark), t.storedMarks = some acc →
      (ms.foldl addStoredMark t).storedMarks = some (acc ++ ms) := by
  induction ms with
  | nil => intro t acc h; simpa using h
  | cons m ms ih =>
    intro t acc h
    have hstep : (addStoredMark t m).storedMarks = some (acc ++ [m]) := by
      simp [addStoredMark, h]
    rw [List.foldl_cons]
    rw [ih (addStoredMark t m) (acc ++ [m]) hstep]
    simp

lemma reconcileNode_of_reconciled {n : PMNode} (h : reconciled n)
    (acc : Tr × Bool) (q : Nat) : reconcileNode acc (q, n) = acc := by
  rcases h with h | h
  · simp [reconcileNode, h]
  · by_cases h1 : n.dir ≠ none ∧ 0 < n.text.length
    · simp [reconcileNode, h1]
    · simp [reconcileNode, h1, h]

lemma reconcileNode_doc (acc : Tr × Bool) (q : Nat) (n : PMNode) :
    ((reconcileNode acc (q, n)).1).doc = acc.1.doc ∨
    ((reconcileNode acc (q, n)).1).doc
      = setDirAt acc.1.doc q (getTextDirection n.text) := by
  by_cases h1 : n.dir ≠ none ∧ 0 < n.text.length
  · left; simp [reconcileNode, h1]
  · by_cases h2 : n.dir = getTextDirection n.text
    · left; simp [reconcileNode, h1, h2]
    · right
      simp only [reconcileNode, h1, h2, if_false]
      rw [(foldl_addStoredMark_parts _ _).1]
      rfl

lemma reconcileNode_writes (acc : Tr × Bool) (q : Nat) (n : PMNode) :
    ((reconcileNode acc (q, n)).1).writes = acc.1.writes ∨
    ((reconcileNode acc (q, n)).1).writes
      = acc.1.writes ++ [(q, getTextDirection n.text)] := by
  by_cases h1 : n.dir ≠ none ∧ 0 < n.text.length
  · left; simp [reconcileNode, h1]
  · by_cases h2 : n.dir = getTextDirection n.text
    · left; simp [reconcileNode, h1, h2]
    · right
      simp only [reconcileNode, h1, h2, if_false]
      rw [(foldl_addStoredMark_parts _ _).2.1]
      rfl

lemma foldl_reconcileNode_get?_preserved (p : Nat) :
    ∀ (pairs : List (Nat × PMNode)) (acc : Tr × Bool),
      (∀ m : PMNode, (p, m) ∈ pairs → reconciled m) →
      ((pairs.foldl reconcileNode acc).1).doc.get? p = acc.1.doc.get? p := by
  intro pairs
  induction pairs with
  | nil => intro acc _; rfl
  | cons x xs ih =>
    intro acc h
    rw [List.foldl_cons, ih _ (fun m hm => h m (List.mem_cons_of_mem _ hm))]
    obtain ⟨q, n⟩ := x
    by_cases hq : p = q
    · subst hq
      rw [reconcileNode_of_reconciled (h n (List.mem_cons_self _ _)) acc p]
    · rcases reconcileNode_doc acc q n with hd | hd <;> rw [hd]
      exact setDirAt_get?_ne _ _ _ _ hq

lemma ranges_foldl_reconcileNode_get?_preserved (p : Nat) (doc₀ : Doc)
    (pred : PMNode → Bool)
    (hp : ∀ m : PMNode, doc₀.get? p = some m → pred m = true → reconciled m) :
    ∀ (ranges : List SRange) (acc : Tr × Bool),
      ((ranges.foldl
          (fun a r => (findChildrenInRange doc₀ r pred).foldl reconcileNode a)
          acc).1).doc.get? p = acc.1.doc.get? p := by
  intro ranges
  induction ranges with
  | nil => intro acc; rfl
  | cons r rs ih =>
    intro acc
    rw [List.foldl_cons, ih]
    apply foldl_reconcileNode_get?_preserved
    intro m hm
    have h := (mem_findChildrenInRange doc₀ r pred p m).1 hm
    exact hp m h.1 h.2.2.2

lemma foldl_reconcileNode_noop :
    ∀ (pairs : List (Nat × PMNode)) (acc : Tr × Bool),
      (∀ x ∈ pairs, reconciled x.2) →
      pairs.foldl reconcileNode acc = acc := by
  intro pairs
  induction pairs with
  | nil => intro acc _; rfl
  | cons x xs ih =>
    intro acc h
    rw [List.foldl_cons]
    obtain ⟨q, n⟩ := x
    rw [reconcileNode_of_reconciled (h _ (List.mem_cons_self _ _)) acc q]
    exact ih _ (fun y hy => h y (List.mem_cons_of_mem _ hy))

lemma ranges_foldl_reconcileNode_noop (doc' : Doc) (pred : PMNode → Bool) :
    ∀ (ranges : List SRange) (acc : Tr × Bool),
      (∀ r ∈ ranges, ∀ x ∈ findChildrenInRange doc' r pred, reconciled x.2) →
      ranges.foldl
        (fun a r => (findChildrenInRange doc' r pred).foldl reconcileNode a)
        acc = acc := by
  intro ranges
  induction ranges with
  | nil => intro acc _; rfl
  | cons r rs ih =>
    intro acc h
    rw [List.foldl_cons, foldl_reconcileNode_noop _ _ (h r (List.mem_cons_self _ _))]
    exact ih _ (fun y hy => h y (List.mem_cons_of_mem _ hy))

lemma mem_getChangedRanges (oldDoc newDoc : Doc) (r : SRange)
    (h : r ∈ getChangedRanges oldDoc newDoc) :
    r.toPos = r.fromPos ∧ oldDoc.get? r.fromPos ≠ newDoc.get? r.fromPos := by
  simp only [getChangedRanges, List.mem_map, List.mem_filter, List.mem_range,
    decide_eq_true_eq] at h
  obtain ⟨i, ⟨_, hne⟩, rfl⟩ := h
  exact ⟨rfl, hne⟩

lemma touchedOk_refl (doc₀ : Doc) : touchedOk doc₀ doc₀ := fun _ => Or.inl rfl

lemma reconcileNode_touchedOk (doc₀ : Doc) (acc : Tr × Bool) (q : Nat) (n : PMNode)
    (hq : doc₀.get? q = some n) (hT : touchedOk doc₀ acc.1.doc) :
    touchedOk doc₀ ((reconcileNode acc (q, n)).1).doc := by
  rcases reconcileNode_doc acc q n with hd | hd
  · rw [hd]; exact hT
  · rw [hd]
    intro p
    by_cases hpq : p = q
    · subst hpq
      rcases hT p with h | ⟨n₀, n', h₀, h', htext, _⟩
      · right
        refine ⟨n, { n with dir := getTextDirection n.text }, hq,
          setDirAt_get?_eq _ _ _ _ (h.trans hq), rfl, Or.inr rfl⟩
      · right
        have h₀n : n₀ = n := by
          rw [h₀] at hq
          exact Option.some.inj hq
        refine ⟨n₀, { n' with dir := getTextDirection n.text }, h₀,
          setDirAt_get?_eq _ _ _ _ h', htext, Or.inr ?_⟩
        show getTextDirection n.text = getTextDirection n'.text
        rw [htext, h₀n]
    · rw [setDirAt_get?_ne _ _ _ _ hpq]
      exact hT p

lemma foldl_reconcileNode_touchedOk (doc₀ : Doc) :
    ∀ (pairs : List (Nat × PMNode)) (acc : Tr × Bool),
      (∀ x ∈ pairs, doc₀.get? x.1 = some x.2) →
      touchedOk doc₀ acc.1.doc →
      touchedOk doc₀ ((pairs.foldl reconcileNode acc).1).doc := by
  intro pairs
  induction pairs with
  | nil => intro acc _ hT; exact hT
  | cons x xs ih =>
    intro acc hs hT
    rw [List.foldl_cons]
    refine ih _ (fun y hy => hs y (List.mem_cons_of_mem _ hy)) ?_
    obtain ⟨q, n⟩ := x
    exact reconcileNode_touchedOk doc₀ acc q n (hs _ (List.mem_cons_self _ _)) hT

lemma ranges_foldl_touchedOk (doc₀ : Doc) (pred : PMNode → Bool) :
    ∀ (ranges : List SRange) (acc : Tr × Bool),
      touchedOk doc₀ acc.1.doc →
      touchedOk doc₀
        ((ranges.foldl
            (fun a r => (findChildrenInRange doc₀ r pred).foldl reconcileNode a)
            acc).1).doc := by
  intro ranges
  induction ranges with
  | nil => intro acc hT; exact hT
  | cons r rs ih =>
    intro acc hT
    rw [List.foldl_cons]
    refine ih _ ?_
    refine foldl_reconcileNode_touchedOk doc₀ _ _ ?_ hT
    intro x hx
    obtain ⟨q, n⟩ := x
    exact ((mem_findChildrenInRange doc₀ r pred q n).1 hx).1

lemma foldl_setNodeMarkup_get?_ne (g : PMNode → PMNode) (p : Nat) :
    ∀ (pairs : List (Nat × PMNode)) (t : Tr),
      (∀ x ∈ pairs, x.1 ≠ p) →
      ((pairs.foldl (fun t x => setNodeMarkup t x.1 (g x.2)) t).doc.get? p
        = t.doc.get? p) := by
  intro pairs
  induction pairs with
  | nil => intro t _; rfl
  | cons x xs ih =>
    intro t h
    rw [List.foldl_cons, ih _ (fun y hy => h y (List.mem_cons_of_mem _ hy))]
    show (setNodeAt t.doc x.1 (g x.2)).get? p = t.doc.get? p
    exact setNodeAt_get?_ne _ _ _ _ (fun hc => h x (List.mem_cons_self _ _) hc.symm)

lemma foldl_setNodeMarkup_get?_eq (g : PMNode → PMNode) (p : Nat) (node : PMNode) :
    ∀ (pairs : List (Nat × PMNode)) (t : Tr),
      (∀ x ∈ pairs, x.1 = p → x.2 = node) →
      t.doc.get? p = some (g node) →
      ((pairs.foldl (fun t x => setNodeMarkup t x.1 (g x.2)) t).doc.get? p
        = some (g node)) := by
  intro pairs
  induction pairs with
  | nil => intro t _ hget; exact hget
  | cons x xs ih =>
    intro t h hget
    rw [List.foldl_cons]
    refine ih _ (fun y hy => h y (List.mem_cons_of_mem _ hy)) ?_
    show (setNodeAt t.doc x.1 (g x.2)).get? p = some (g node)
    by_cases hx : x.1 = p
    · rw [h x (List.mem_cons_self _ _) hx] at *
      rw [hx]
      exact setNodeAt_get?_eq _ _ _ _ hget
    · rw [setNodeAt_get?_ne _ _ _ _ (fun hc => hx hc.symm)]
      exact hget

lemma foldl_setNodeMarkup_get?_hit (g : PMNode → PMNode) (p : Nat) (node : PMNode) :
    ∀ (pairs : List (Nat × PMNode)) (t : Tr),
      (p, node) ∈ pairs →
      (∀ x ∈ pairs, x.1 = p → x.2 = node) →
      t.doc.get? p = some node →
      ((pairs.foldl (fun t x => setNodeMarkup t x.1 (g x.2)) t).doc.get? p
        = some (g node)) := by
  intro pairs
  induction pairs with
  | nil => intro t h; simp at h
  | cons x xs ih =>
    intro t hmem hval hget
    rw [List.foldl_cons]
    by_cases hx : x.1 = p
    · have hxn : x.2 = node := hval x (List.mem_cons_self _ _) hx
      refine foldl_setNodeMarkup_get?_eq g p node xs _
        (fun y hy => hval y (List.mem_cons_of_mem _ hy)) ?_
      show (setNodeAt t.doc x.1 (g x.2)).get? p = some (g node)
      rw [hx, hxn]
      exact setNodeAt_get?_eq _ _ _ _ hget
    · have hmem' : (p, node) ∈ xs := by
        rcases List.mem_cons.mp hmem with h | h
        · exact absurd (congrArg Prod.fst h.symm) hx
        · exact h
      refine ih _ hmem' (fun y hy => hval y (List.mem_cons_of_mem _ hy)) ?_
      show (setNodeAt t.doc x.1 (g x.2)).get? p = some node
      rw [setNodeAt_get?_ne _ _ _ _ (fun hc => hx hc.symm)]
      exact hget

lemma getTextDirection_ne_auto (t : List Nat) :
    getTextDirection t ≠ some Direction.auto := by
  unfold getTextDirection
  split
  · simp
  · split
    · simp
    · split <;> simp

lemma reconcileNode_writesOk (acc : Tr × Bool) (x : Nat × PMNode)
    (h : writesOk acc.1) : writesOk (reconcileNode acc x).1 := by
  obtain ⟨q, n⟩ := x
  rcases reconcileNode_writes acc q n with hw | hw <;> intro w hwmem <;> rw [hw] at hwmem
  · exact h w hwmem
  · rcases List.mem_append.mp hwmem with hm | hm
    · exact h w hm
    · rw [List.mem_singleton.mp hm]
      simpa using getTextDirection_ne_auto n.text

lemma foldl_reconcileNode_writesOk :
    ∀ (pairs : List (Nat × PMNode)) (acc : Tr × Bool),
      writesOk acc.1 → writesOk ((pairs.foldl reconcileNode acc)).1 := by
  intro pairs
  induction pairs with
  | nil => intro acc h; exact h
  | cons x xs ih =>
    intro acc h
    rw [List.foldl_cons]
    exact ih _ (reconcileNode_writesOk acc x h)

lemma ranges_foldl_writesOk (doc₀ : Doc) (pred : PMNode → Bool) :
    ∀ (ranges : List SRange) (acc : Tr × Bool),
      writesOk acc.1 →
      writesOk ((ranges.foldl
          (fun a r => (findChildrenInRange doc₀ r pred).foldl reconcileNode a)
          acc)).1 := by
  intro ranges
  induction ranges with
  | nil => intro acc h; exact h
  | cons r rs ih =>
    intro acc h
    rw [List.foldl_cons]
    exact ih _ (foldl_reconcileNode_writesOk _ _ h)

/-- C2: a managed node whose `dir` attribute is non-null and whose text
content is non-empty is left untouched by the reconciliation pass, whatever
the triggering edit batch changed; in particular a node with explicit
`dir = rtl` and non-empty text keeps it across edits of its siblings. -/
theorem reconcile_preserves_explicit_dir (types : List String)
    (transactions : List Transaction) (oldState newState : EditorState)
    (p : Nat) (node : PMNode)
    (hget : newState.doc.get? p = some node)
    (hdir : node.dir ≠ none) (htext : node.text ≠ []) :
    (docAfter (appendTransaction types transactions oldState newState)
        newState.doc).get? p = some node := by
  have hrec : ∀ m : PMNode, newState.doc.get? p = some m →
      (fun n => types.contains n.typeName) m = true → reconciled m := by
    intro m hm _
    rw [hget] at hm
    rw [← Option.some.inj hm]
    exact Or.inl ⟨hdir, by cases hn : node.text with
      | nil => exact absurd hn htext
      | cons a as => simp [hn]⟩
  simp only [appendTransaction]
  by_cases hdc : (transactions.any fun t => t.docChanged) = false
  · rw [if_pos hdc]
    exact hget
  · rw [if_neg hdc]
    have hpres := ranges_foldl_reconcileNode_get?_preserved p newState.doc
      (fun n => types.contains n.typeName) hrec
      (getChangedRanges oldState.doc newState.doc)
      ({ initialTr newState with addToHistory := false }, false)
    split
    · rw [docAfter, hpres]
      exact hget
    · rw [docAfter]
      exact hget

theorem reconcile_preserves_explicit_dir_witness :
    (docAfter
        (appendTransaction ["paragraph"] [⟨true⟩] ⟨[], none⟩
          ⟨[⟨"paragraph", some Direction.rtl, [0x5D0]⟩], none⟩)
        [⟨"paragraph", some Direction.rtl, [0x5D0]⟩]).get? 0
      = some ⟨"paragraph", some Direction.rtl, [0x5D0]⟩ :=
  reconcile_preserves_explicit_dir ["paragraph"] [⟨true⟩] ⟨[], none⟩
    ⟨[⟨"paragraph", some Direction.rtl, [0x5D0]⟩], none⟩ 0
    ⟨"paragraph", some Direction.rtl, [0x5D0]⟩ (by decide) (by decide) (by decide)

/-- C3: in the revision that has a configured allowed-direction set (the
`directions` option), `setTextDirection` called with a direction outside that
set returns `false` and performs no document mutation, for every target. -/
theorem setTextDirection_invalid_rejected (directions types : List String)
    (direction : String) (sel : SRange) (doc : V2.V2Doc)
    (h : directions.contains direction = false) :
    V2.setTextDirection directions types direction sel doc = (false, doc) := by
  simp only [V2.setTextDirection]
  rw [if_pos h]

theorem setTextDirection_invalid_rejected_witness :
    V2.setTextDirection ["ltr", "rtl", "auto"] ["paragraph"] "sideways" ⟨0, 5⟩
        [⟨"paragraph", none, [104]⟩]
      = (false, [⟨"paragraph", none, [104]⟩]) :=
  setTextDirection_invalid_rejected ["ltr", "rtl", "auto"] ["paragraph"]
    "sideways" ⟨0, 5⟩ [⟨"paragraph", none, [104]⟩] (by decide)

/-- C4: for every configured default and every direction in the allowed set,
parsing the rendered attribute recovers the effective direction (the value
itself; when rendering omitted the attribute because the value equals the
default, parsing the absent attribute yields the default, which is that same
value); and every raw attribute string outside the allowed set parses to the
configured default. -/
theorem parse_render_roundtrip (dflt : Option Direction) (d : Direction) :
    parseHTML dflt (renderHTML dflt (some d)) = some d
    ∧ ∀ s : String, dirOfString s = none → parseHTML dflt (some s) = dflt := by
  constructor
  · by_cases h : (some d : Option Direction) = dflt
    · rw [renderHTML, if_pos (Or.inr h)]
      exact h.symm
    · rw [renderHTML, if_neg (by simp [h])]
      cases d <;> simp [parseHTML, dirOfString, Direction.toAttr]
  · intro s hs
    simp [parseHTML, hs]

theorem parse_render_roundtrip_witness :
    parseHTML none (renderHTML none (some Direction.rtl)) = some Direction.rtl
    ∧ parseHTML none (some "sideways") = none :=
  ⟨(parse_render_roundtrip none Direction.rtl).1,
    (parse_render_roundtrip none Direction.rtl).2 "sideways" (by decide)⟩

/-- C6: an edit batch with no document-altering step produces no changed
ranges (the composed transform relates equal snapshots) and the plugin
appends no transaction, leaving the document unchanged. -/
theorem empty_batch_noop (types : List String) (transactions : List Transaction)
    (oldState newState : EditorState)
    (hsteps : (transactions.any fun t => t.docChanged) = false)
    (hdoc : newState.doc = oldState.doc) :
    getChangedRanges oldState.doc newState.doc = []
    ∧ appendTransaction types transactions oldState newState = none := by
  constructor
  · rw [hdoc]
    simp [getChangedRanges]
  · simp [appendTransaction, hsteps]

theorem empty_batch_noop_witness :
    getChangedRanges [⟨"paragraph", none, [104]⟩] [⟨"paragraph", none, [104]⟩] = []
    ∧ appendTransaction ["paragraph"] [⟨false⟩]
        ⟨[⟨"paragraph", none, [104]⟩], none⟩ ⟨[⟨"paragraph", none, [104]⟩], none⟩
      = none :=
  empty_batch_noop ["paragraph"] [⟨false⟩]
    ⟨[⟨"paragraph", none, [104]⟩], none⟩ ⟨[⟨"paragraph", none, [104]⟩], none⟩
    (by decide) rfl

/-- C7: a dispatched `setTextDirection` with an allowed direction sets the
`dir` attribute of every type-matching node covered by the resolved target to
that direction — regardless of the node's content, its classification or its
existing explicit `dir` — and reports success. -/
theorem setTextDirection_sets_all (types : List String) (d : Direction)
    (position : Option (Nat ⊕ SRange)) (selection : SRange) (tr : Tr)
    (p : Nat) (node : PMNode)
    (hget : tr.doc.get? p = some node)
    (hty : types.contains node.typeName = true)
    (hlo : (resolveRange position selection).fromPos ≤ p)
    (hhi : p ≤ (resolveRange position selection).toPos) :
    ((setTextDirection types d position selection tr true).1).doc.get? p
        = some { node with dir := some d }
    ∧ (setTextDirection types d position selection tr true).2 = true := by
  refine ⟨?_, rfl⟩
  show ((findChildrenInRange tr.doc (resolveRange position selection)
      (fun n => types.contains n.typeName)).foldl
      (fun t x => setNodeMarkup t x.1 { x.2 with dir := some d }) tr).doc.get? p
    = some { node with dir := some d }
  refine foldl_setNodeMarkup_get?_hit (fun n => { n with dir := some d }) p node
    _ tr ?_ ?_ hget
  · exact (mem_findChildrenInRange _ _ _ _ _).2 ⟨hget, hlo, hhi, hty⟩
  · intro x hx hxp
    have hm := ((mem_findChildrenInRange _ _ _ _ _).1 hx).1
    rw [hxp, hget] at hm
    exact (Option.some.inj hm).symm

theorem setTextDirection_sets_all_witness :
    ((setTextDirection ["paragraph"] Direction.rtl none ⟨0, 0⟩
        ⟨[⟨"paragraph", none, [104]⟩], none, [], true⟩ true).1).doc.get? 0
      = some ⟨"paragraph", some Direction.rtl, [104]⟩
    ∧ (setTextDirection ["paragraph"] Direction.rtl none ⟨0, 0⟩
        ⟨[⟨"paragraph", none, [104]⟩], none, [], true⟩ true).2 = true :=
  setTextDirection_sets_all ["paragraph"] Direction.rtl none ⟨0, 0⟩
    ⟨[⟨"paragraph", none, [104]⟩], none, [], true⟩ 0 ⟨"paragraph", none, [104]⟩
    (by decide) (by decide) (by decide) (by decide)

/-- C8 (amended): around every staged attribute write, the pass captures the
queued stored marks before `setNodeAttribute` and restores them afterwards,
so whenever the pending stored-marks state before the write is not the
explicitly-empty mark list, the state after the write is identical to it
(and an explicitly-empty list is restored as the equally-empty null state). -/
theorem reconcile_restores_storedMarks (acc : Tr × Bool) (q : Nat) (n : PMNode)
    (h : acc.1.storedMarks ≠ some []) :
    ((reconcileNode acc (q, n)).1).storedMarks = acc.1.storedMarks := by
  by_cases h1 : n.dir ≠ none ∧ 0 < n.text.length
  · simp [reconcileNode, h1]
  · by_cases h2 : n.dir = getTextDirection n.text
    · simp [reconcileNode, h1, h2]
    · simp only [reconcileNode, h1, h2, if_false]
      cases hsm : acc.1.storedMarks with
      | none =>
        simp only [hsm, Option.getD_none, List.foldl_nil]
        rfl
      | some ms =>
        cases ms with
        | nil => exact absurd hsm h
        | cons m ms' =>
          simp only [hsm, Option.getD_some, List.foldl_cons]
          have h0 : (addStoredMark
              (setNodeAttribute acc.1 q (getTextDirection n.text)) m).storedMarks
              = some [m] := rfl
          rw [foldl_addStoredMark_storedMarks_some ms' _ [m] h0]
          rfl

theorem reconcile_restores_storedMarks_witness :
    ((reconcileNode (⟨[⟨"paragraph", none, [97]⟩], some [5], [], true⟩, false)
        (0, ⟨"paragraph", none, [97]⟩)).1).storedMarks
      = (⟨[⟨"paragraph", none, [97]⟩], some [5], [], true⟩ : Tr).storedMarks :=
  reconcile_restores_storedMarks
    (⟨[⟨"paragraph", none, [97]⟩], some [5], [], true⟩, false) 0
    ⟨"paragraph", none, [97]⟩ (by decide)

/-- C8 counterexample: the claim as stated fails on the explicitly-empty
stored-marks state — the write resets it to the null state and the restore
loop has nothing to put back, so the states before and after the write
differ (`some []` versus `none`). -/
theorem reconcile_storedMarks_cex :
    ((reconcileNode (⟨[⟨"paragraph", none, [97]⟩], some [], [], true⟩, false)
        (0, ⟨"paragraph", none, [97]⟩)).1).storedMarks
      ≠ (⟨[⟨"paragraph", none, [97]⟩], some [], [], true⟩ : Tr).storedMarks := by
  decide

/-- C9: a node whose type name is not in the configured type set is never
mutated — neither by the reconciliation pass nor by a dispatched
`setTextDirection` or `unsetTextDirection`. -/
theorem untyped_nodes_untouched (types : List String)
    (transactions : List Transaction) (oldState newState : EditorState)
    (d : Direction) (position : Option (Nat ⊕ SRange)) (selection : SRange)
    (tr : Tr) (p : Nat) (node : PMNode)
    (hty : types.contains node.typeName = false)
    (hget1 : newState.doc.get? p = some node)
    (hget2 : tr.doc.get? p = some node) :
    (docAfter (appendTransaction types transactions oldState newState)
        newState.doc).get? p = some node
    ∧ ((setTextDirection types d position selection tr true).1).doc.get? p
        = some node
    ∧ ((unsetTextDirection types position selection tr true).1).doc.get? p
        = some node := by
  have hnomem : ∀ (dc : Doc) (r : SRange), dc.get? p = some node →
      ∀ x ∈ findChildrenInRange dc r (fun n => types.contains n.typeName),
        x.1 ≠ p := by
    intro dc r hdc x hx hxp
    obtain ⟨q, m⟩ := x
    have hm := (mem_findChildrenInRange dc r _ q m).1 hx
    cases hxp
    rw [hdc] at hm
    have hnm : node = m := Option.some.inj hm.1
    have hcm := hm.2.2.2
    rw [← hnm, hty] at hcm
    exact absurd hcm Bool.false_ne_true
  refine ⟨?_, ?_, ?_⟩
  · have hrec : ∀ m : PMNode, newState.doc.get? p = some m →
        (fun n => types.contains n.typeName) m = true → reconciled m := by
      intro m hm hmt
      rw [hget1] at hm
      have hnm : node = m := Option.some.inj hm
      have hmt' : types.contains m.typeName = true := hmt
      rw [← hnm, hty] at hmt'
      exact absurd hmt' Bool.false_ne_true
    simp only [appendTransaction]
    by_cases hdc : (transactions.any fun t => t.docChanged) = false
    · rw [if_pos hdc]
      exact hget1
    · rw [if_neg hdc]
      have hpres := ranges_foldl_reconcileNode_get?_preserved p newState.doc
        (fun n => types.contains n.typeName) hrec
        (getChangedRanges oldState.doc newState.doc)
        ({ initialTr newState with addToHistory := false }, false)
      split
      · rw [docAfter, hpres]
        exact hget1
      · rw [docAfter]
        exact hget1
  · show ((findChildrenInRange tr.doc (resolveRange position selection)
        (fun n => types.contains n.typeName)).foldl
        (fun t x => setNodeMarkup t x.1 { x.2 with dir := some d }) tr).doc.get? p
      = some node
    rw [foldl_setNodeMarkup_get?_ne (fun n => { n with dir := some d }) p _ tr
      (hnomem tr.doc _ hget2)]
    exact hget2
  · show ((findChildrenInRange tr.doc (resolveRange position selection)
        (fun n => types.contains n.typeName)).foldl
        (fun t x => setNodeMarkup t x.1 { x.2 with dir := none }) tr).doc.get? p
      = some node
    rw [foldl_setNodeMarkup_get?_ne (fun n => { n with dir := none }) p _ tr
      (hnomem tr.doc _ hget2)]
    exact hget2

theorem untyped_nodes_untouched_witness :
    (docAfter
        (appendTransaction ["paragraph"] [⟨true⟩] ⟨[], none⟩
          ⟨[⟨"blockquote", some Direction.rtl, [97]⟩], none⟩)
        [⟨"blockquote", some Direction.rtl, [97]⟩]).get? 0
      = some ⟨"blockquote", some Direction.rtl, [97]⟩
    ∧ ((setTextDirection ["paragraph"] Direction.ltr none ⟨0, 0⟩
        ⟨[⟨"blockquote", some Direction.rtl, [97]⟩], none, [], true⟩ true).1).doc.get? 0
      = some ⟨"blockquote", some Direction.rtl, [97]⟩
    ∧ ((unsetTextDirection ["paragraph"] none ⟨0, 0⟩
        ⟨[⟨"blockquote", some Direction.rtl, [97]⟩], none, [], true⟩ true).1).doc.get? 0
      = some ⟨"blockquote", some Direction.rtl, [97]⟩ :=
  untyped_nodes_untouched ["paragraph"] [⟨true⟩] ⟨[], none⟩
    ⟨[⟨"blockquote", some Direction.rtl, [97]⟩], none⟩ Direction.ltr none ⟨0, 0⟩
    ⟨[⟨"blockquote", some Direction.rtl, [97]⟩], none, [], true⟩ 0
    ⟨"blockquote", some Direction.rtl, [97]⟩ (by decide) (by decide) (by decide)

lemma appendTransaction_eq_some (types : List String) (txs : List Transaction)
    (oldState newState : EditorState) (tr : Tr)
    (h : appendTransaction types txs oldState newState = some tr) :
    tr = ((getChangedRanges oldState.doc newState.doc).foldl
        (fun acc newRange =>
          (findChildrenInRange newState.doc newRange
            (fun node => types.contains node.typeName)).foldl reconcileNode acc)
        ({ initialTr newState with addToHistory := false }, false)).1 := by
  simp only [appendTransaction] at h
  by_cases hdc : (txs.any fun t => t.docChanged) = false
  · rw [if_pos hdc] at h
    exact absurd h (by simp)
  · rw [if_neg hdc] at h
    split at h
    · exact (Option.some.inj h).symm
    · exact absurd h (by simp)

/-- C5: on an eligible node (null `dir` or empty text) the per-node loop
stages a `dir` write exactly when the classified direction differs from the
node's current `dir`; consequently running the pass a second time, over the
content the first run produced, appends no transaction at all. -/
theorem reconcile_write_iff_differs :
    (∀ (tr : Tr) (q : Nat) (n : PMNode), n.dir = none ∨ n.text = [] →
      ((((reconcileNode (tr, false) (q, n)).1).writes
          = tr.writes ++ [(q, getTextDirection n.text)]
        ∧ (reconcileNode (tr, false) (q, n)).2 = true)
       ↔ getTextDirection n.text ≠ n.dir))
    ∧ ∀ (types : List String) (txs : List Transaction)
        (oldState newState : EditorState) (tr : Tr) (txs2 : List Transaction)
        (sm2 sm3 : Option (List Mark)),
        appendTransaction types txs oldState newState = some tr →
        appendTransaction types txs2 ⟨newState.doc, sm2⟩ ⟨tr.doc, sm3⟩ = none := by
  constructor
  · intro tr q n h
    have h1 : ¬ (n.dir ≠ none ∧ 0 < n.text.length) := by
      rcases h with h | h
      · intro hc; exact hc.1 h
      · intro hc; rw [h] at hc; simp at hc
    by_cases h2 : n.dir = getTextDirection n.text
    · constructor
      · rintro ⟨hw, _⟩
        rw [reconcileNode_of_reconciled (Or.inr h2) (tr, false) q] at hw
        exact absurd hw (by simp)
      · intro hne
        exact absurd h2.symm hne
    · constructor
      · intro _
        exact fun hc => h2 hc.symm
      · intro _
        constructor
        · simp only [reconcileNode, h1, h2, if_false]
          rw [(foldl_addStoredMark_parts _ _).2.1]
          rfl
        · simp [reconcileNode, h1, h2]
  · intro types txs oldState newState tr txs2 sm2 sm3 h
    have htr := appendTransaction_eq_some types txs oldState newState tr h
    have hT : touchedOk newState.doc tr.doc := by
      rw [htr]
      exact ranges_foldl_touchedOk newState.doc _ _ _ (touchedOk_refl _)
    simp only [appendTransaction]
    by_cases hdc2 : (txs2.any fun t => t.docChanged) = false
    · rw [if_pos hdc2]
    · rw [if_neg hdc2]
      have hall : ∀ r ∈ getChangedRanges (⟨newState.doc, sm2⟩ : EditorState).doc
            (⟨tr.doc, sm3⟩ : EditorState).doc,
          ∀ x ∈ findChildrenInRange (⟨tr.doc, sm3⟩ : EditorState).doc r
            (fun node => types.contains node.typeName),
          reconciled x.2 := by
        intro r hr x hx
        obtain ⟨q, n⟩ := x
        have hrr := mem_getChangedRanges _ _ r hr
        have hm := (mem_findChildrenInRange _ _ _ q n).1 hx
        obtain ⟨hget, hge, hle, _⟩ := hm
        obtain ⟨hrt, hne⟩ := hrr
        have hq : q = r.fromPos := by omega
        rw [hq] at hget
        rcases hT r.fromPos with hsame | ⟨n₀, n', h₀, h', _, hrec⟩
        · exact absurd hsame.symm hne
        · have hn : n' = n := Option.some.inj (h'.symm.trans hget)
          rw [hn] at hrec
          exact hrec
      have hnoop := ranges_foldl_reconcileNode_noop
        ((⟨tr.doc, sm3⟩ : EditorState).doc)
        (fun node => types.contains node.typeName)
        (getChangedRanges (⟨newState.doc, sm2⟩ : EditorState).doc
          (⟨tr.doc, sm3⟩ : EditorState).doc)
        ({ initialTr ⟨tr.doc, sm3⟩ with addToHistory := false }, false) hall
      rw [hnoop]
      simp

theorem reconcile_write_iff_differs_witness :
    ((((reconcileNode (⟨[], none, [], true⟩, false)
          (0, ⟨"paragraph", none, [97]⟩)).1).writes
        = (⟨[], none, [], true⟩ : Tr).writes ++ [(0, getTextDirection [97])]
      ∧ (reconcileNode (⟨[], none, [], true⟩, false)
          (0, ⟨"paragraph", none, [97]⟩)).2 = true)
     ↔ getTextDirection [97] ≠ (none : Option Direction))
    ∧ appendTransaction ["paragraph"] [⟨true⟩]
        ⟨[⟨"paragraph", none, [97]⟩], none⟩
        ⟨[⟨"paragraph", some Direction.ltr, [97]⟩], none⟩ = none :=
  ⟨reconcile_write_iff_differs.1 ⟨[], none, [], true⟩ 0
      ⟨"paragraph", none, [97]⟩ (by decide),
    reconcile_write_iff_differs.2 ["paragraph"] [⟨true⟩] ⟨[], none⟩
      ⟨[⟨"paragraph", none, [97]⟩], none⟩
      ⟨[⟨"paragraph", some Direction.ltr, [97]⟩], none, [(0, some Direction.ltr)], false⟩
      [⟨true⟩] none none (by decide)⟩

/-- C10: the classifier never yields `auto`, and consequently every `dir`
write staged by the reconciliation pass is `ltr`, `rtl` or `null` — never
`auto`. -/
theorem reconcile_never_auto :
    (∀ t : List Nat, getTextDirection t ≠ some Direction.auto)
    ∧ ∀ (types : List String) (txs : List Transaction)
        (oldState newState : EditorState) (tr : Tr),
        appendTransaction types txs oldState newState = some tr →
        ∀ w ∈ tr.writes, w.2 ≠ some Direction.auto := by
  constructor
  · exact getTextDirection_ne_auto
  · intro types txs oldState newState tr h
    rw [appendTransaction_eq_some types txs oldState newState tr h]
    refine ranges_foldl_writesOk newState.doc _ _ _ ?_
    intro w hw
    simp [initialTr] at hw

theorem reconcile_never_auto_witness :
    getTextDirection [0x31] ≠ some Direction.auto
    ∧ ((0, some Direction.ltr) : Nat × Option Direction).2 ≠ some Direction.auto :=
  ⟨reconcile_never_auto.1 [0x31],
    reconcile_never_auto.2 ["paragraph"] [⟨true⟩] ⟨[], none⟩
      ⟨[⟨"paragraph", none, [97]⟩], none⟩
      ⟨[⟨"paragraph", some Direction.ltr, [97]⟩], none, [(0, some Direction.ltr)], false⟩
      (by decide) (0, some Direction.ltr) (by decide)⟩
